import Mathlib

/-!
Shallow embedding of the file-tree node store from
`src/src/api/file-operations.ts` and `src/src/types/file-types.ts`.

The TypeScript store is a module-level `Map<string, INode>` named `DATA`;
every operation reads or mutates it. We embed the store as an ordered
association list `Store := List (String × INode)` (a JS `Map` preserves
insertion order and has unique keys) and each operation as a function
taking the store state explicitly and returning the new state together
with the operation's return value.
-/

namespace FileTreeStore

/-- An inode: a file or a directory (the tagged union `INode` of
`src/src/types/file-types.ts`; `File` has fields `id`, `type: "file"`,
`name`; `Directory` additionally has `children : string[]`). -/
inductive INode where
  | file (id name : String)
  | directory (id name : String) (children : List String)
deriving DecidableEq

/-- The `id` field of an inode. -/
def INode.id : INode → String
  | .file i _ => i
  | .directory i _ _ => i

/-- The `name` field of an inode. -/
def INode.name : INode → String
  | .file _ n => n
  | .directory _ n _ => n

/-- The `type` discriminant field of an inode, as the string the source
stores in it ("file" or "directory"). -/
def INode.typeTag : INode → String
  | .file _ _ => "file"
  | .directory _ _ _ => "directory"

/-- The `children` field of an inode; files have none. -/
def INode.childrenOf : INode → List String
  | .file _ _ => []
  | .directory _ _ cs => cs

/-- `node.name = newName`: the same inode with only the `name` field
replaced (this is the mutation `renameNode` performs). -/
def INode.withName : INode → String → INode
  | .file i _, n => .file i n
  | .directory i _ cs, n => .directory i n cs

/-- The store state: the entries of the `DATA` map in insertion order. -/
abbrev Store := List (String × INode)

/-- `DATA.get(key)`: the value at `key`, or `none` when absent. -/
def mapGet : Store → String → Option INode
  | [], _ => none
  | (k, v) :: rest, key => if k = key then some v else mapGet rest key

/-- `DATA.set(key, v)`: replace the entry at `key` in place, or append a
new entry when the key is absent (JS `Map.set` semantics). -/
def mapSet : Store → String → INode → Store
  | [], key, v => [(key, v)]
  | (k, w) :: rest, key, v =>
      if k = key then (key, v) :: rest else (k, w) :: mapSet rest key v

/-- `DATA.delete(key)`: remove the entry at `key` when present. -/
def mapDelete : Store → String → Store
  | [], _ => []
  | (k, w) :: rest, key =>
      if k = key then rest else (k, w) :: mapDelete rest key

/-- The fixed seed tree the module initialises `DATA` with:
`root → {index.tsx, components → {button.tsx},
types → {file-types.tsx, other-types.tsx}}`. -/
def seedStore : Store :=
  [ ("root", .directory "root" "src" ["index.tsx", "components", "types"]),
    ("index.tsx", .file "index.tsx" "index.tsx"),
    ("components", .directory "components" "components" ["button.tsx"]),
    ("button.tsx", .file "button.tsx" "button.tsx"),
    ("types", .directory "types" "types" ["file-types.tsx", "other-types.tsx"]),
    ("file-types.tsx", .file "file-types.tsx" "file-types.tsx"),
    ("other-types.tsx", .file "other-types.tsx" "other-types.tsx") ]

/-- `readINode(id)`: `DATA.get(id) || null`. (The source defaults `id`
to "root"; callers here always pass the id explicitly.) -/
def readINode (s : Store) (i : String) : Option INode :=
  mapGet s i

/-- JS `s.toLowerCase()`: lower-case the string character by character
(the names in this store are ASCII, where this agrees with JS). -/
def jsToLower (s : String) : String :=
  String.mk (s.data.map Char.toLower)

/-- JS `haystack.includes(needle)`: `needle` occurs contiguously in
`haystack`, i.e. it is a prefix of some suffix. -/
def jsIncludes (haystack needle : String) : Bool :=
  (List.range (haystack.length + 1)).any
    (fun i => needle.data.isPrefixOf (haystack.data.drop i))

/-- `searchFiles(query)`: iterate over all `DATA` entries in order and
push `{...node, path: node.name}` for each node whose lowercased name
contains the lowercased query. Results are (node, path) pairs. -/
def searchFiles (s : Store) (query : String) : List (INode × String) :=
  s.foldl
    (fun results p =>
      if jsIncludes (jsToLower p.2.name) (jsToLower query)
      then results ++ [(p.2, p.2.name)]
      else results)
    []

/-- `createFile(parentId, fileName, fileExtension)`: build the new file
with id `fileName + fileExtension`, unconditionally `DATA.set` it, then,
only when the parent exists and is a directory, append the new id to the
parent's `children`. Returns the new store and the created file. (The
source defaults `fileExtension` to ".txt"; callers here pass it
explicitly.) -/
def createFile (s : Store) (parentId fileName fileExtension : String) :
    Store × INode :=
  let newId := fileName ++ fileExtension
  let newFile : INode := .file newId (fileName ++ fileExtension)
  let s1 := mapSet s newId newFile
  match mapGet s1 parentId with
  | some (.directory pid pname children) =>
      (mapSet s1 parentId (.directory pid pname (children ++ [newId])), newFile)
  | _ => (s1, newFile)

/-- `createDirectory(parentId, dirName)`: build the new directory with
id `dirName` and empty children, unconditionally `DATA.set` it, then,
only when the parent exists and is a directory, append the new id to the
parent's `children`. -/
def createDirectory (s : Store) (parentId dirName : String) :
    Store × INode :=
  let newId := dirName
  let newDir : INode := .directory newId dirName []
  let s1 := mapSet s newId newDir
  match mapGet s1 parentId with
  | some (.directory pid pname children) =>
      (mapSet s1 parentId (.directory pid pname (children ++ [newId])), newDir)
  | _ => (s1, newDir)

/-- `renameNode(nodeId, newName)`: when the node exists, set its `name`
and store it back, returning the updated node; when absent, the store is
untouched and the source returns `node!`, i.e. `undefined`, modelled as
`none`. -/
def renameNode (s : Store) (nodeId newName : String) :
    Store × Option INode :=
  match mapGet s nodeId with
  | some node => (mapSet s nodeId (node.withName newName), some (node.withName newName))
  | none => (s, none)

/-- `deleteNode(nodeId)`: return `false` when the node is absent;
otherwise first recursively delete each child (for a directory), then
`DATA.delete(nodeId)` and return `true`. The source recursion is
unbounded (it can diverge on a cyclic store), so the embedding takes a
fuel argument bounding the recursion depth; any fuel at least the store
size suffices on acyclic stores. -/
def deleteNode : Nat → Store → String → Store × Bool
  | 0, s, _ => (s, false)
  | fuel + 1, s, nodeId =>
    match mapGet s nodeId with
    | none => (s, false)
    | some node =>
      let s1 :=
        match node with
        | .directory _ _ children =>
            children.foldl (fun acc cid => (deleteNode fuel acc cid).1) s
        | .file _ _ => s
      (mapDelete s1 nodeId, true)

/-- `getAllNodes()`: `new Map(DATA)` — a copy of the whole table. -/
def getAllNodes (s : Store) : Store := s

/-- `resetFileSystem()`: `DATA.clear()` and then `DATA.set` each seed
entry in order (the source's `initialData` literal is the same seven
entries the module initialises `DATA` with). -/
def resetFileSystem (_s : Store) : Store :=
  seedStore.foldl (fun acc p => mapSet acc p.1 p.2) []

/-- The store states reachable from the seed tree by any sequence of
create / rename / delete operations. -/
inductive Reachable : Store → Prop where
  | init : Reachable seedStore
  | stepCreateFile (s : Store) (p n e : String) :
      Reachable s → Reachable (createFile s p n e).1
  | stepCreateDirectory (s : Store) (p n : String) :
      Reachable s → Reachable (createDirectory s p n).1
  | stepRename (s : Store) (i n : String) :
      Reachable s → Reachable (renameNode s i n).1
  | stepDelete (fuel : Nat) (s : Store) (i : String) :
      Reachable s → Reachable (deleteNode fuel s i).1

end FileTreeStore

namespace FileTreeStore

/-! ### Association-list lemmas for the `DATA` map operations -/

theorem mapGet_mapSet_self (s : Store) (k : String) (v : INode) :
    mapGet (mapSet s k v) k = some v := by
  induction s with
  | nil => simp [mapSet, mapGet]
  | cons p rest ih =>
    obtain ⟨k', w⟩ := p
    by_cases h : k' = k
    · simp [mapSet, mapGet, h]
    · simp [mapSet, mapGet, h, ih]

theorem mapGet_mapSet_ne (s : Store) (k j : String) (v : INode)
    (h : j ≠ k) : mapGet (mapSet s k v) j = mapGet s j := by
  induction s with
  | nil => simp [mapSet, mapGet, Ne.symm h]
  | cons p rest ih =>
    obtain ⟨k', w⟩ := p
    by_cases h1 : k' = k
    · subst h1
      simp [mapSet, mapGet, Ne.symm h]
    · by_cases h2 : k' = j
      · subst h2
        simp [mapSet, mapGet, h]
      · simp [mapSet, mapGet, h1, h2, ih]

/-! ### `withName` field lemmas -/

theorem name_withName (n : INode) (m : String) : (n.withName m).name = m := by
  cases n <;> rfl

theorem id_withName (n : INode) (m : String) : (n.withName m).id = n.id := by
  cases n <;> rfl

theorem typeTag_withName (n : INode) (m : String) :
    (n.withName m).typeTag = n.typeTag := by
  cases n <;> rfl

theorem childrenOf_withName (n : INode) (m : String) :
    (n.withName m).childrenOf = n.childrenOf := by
  cases n <;> rfl

/-! ### Substring lemmas for `jsIncludes` -/

theorem isPrefixOf_iff_append (l1 l2 : List Char) :
    l1.isPrefixOf l2 = true ↔ ∃ t, l1 ++ t = l2 := by
  induction l1 generalizing l2 with
  | nil => simp [List.isPrefixOf]
  | cons a as ih =>
    cases l2 with
    | nil => simp [List.isPrefixOf]
    | cons b bs =>
      simp only [List.isPrefixOf, Bool.and_eq_true, beq_iff_eq, ih,
        List.cons_append, List.cons.injEq]
      constructor
      · rintro ⟨rfl, t, rfl⟩
        exact ⟨t, rfl, rfl⟩
      · rintro ⟨t, rfl, rfl⟩
        exact ⟨rfl, t, rfl⟩

theorem jsIncludes_iff (hay need : String) :
    jsIncludes hay need = true ↔
      ∃ pre post, hay.data = pre ++ need.data ++ post := by
  unfold jsIncludes
  rw [List.any_eq_true]
  constructor
  · rintro ⟨i, _, hp⟩
    rw [isPrefixOf_iff_append] at hp
    obtain ⟨t, ht⟩ := hp
    refine ⟨hay.data.take i, t, ?_⟩
    rw [List.append_assoc, ht, List.take_append_drop]
  · rintro ⟨pre, post, h⟩
    refine ⟨pre.length, ?_, ?_⟩
    · rw [List.mem_range]
      have hlen : hay.length = hay.data.length := rfl
      rw [Nat.lt_succ_iff, hlen, h]
      simp [Nat.le_add_right]
    · rw [isPrefixOf_iff_append]
      refine ⟨post, ?_⟩
      rw [h, List.append_assoc, List.drop_left]

theorem jsIncludes_empty_needle (x : String) : jsIncludes x "" = true := by
  unfold jsIncludes
  rw [List.any_eq_true]
  refine ⟨0, List.mem_range.mpr (Nat.succ_pos _), ?_⟩
  rw [show ("" : String).data = ([] : List Char) by decide]
  exact List.isPrefixOf_nil_left

/-! ### The search loop as a filter over the table -/

theorem searchFiles_eq_filterMap (s : Store) (q : String) :
    searchFiles s q = s.filterMap (fun p =>
      if jsIncludes (jsToLower p.2.name) (jsToLower q)
      then some (p.2, p.2.name) else none) := by
  have key : ∀ (l : Store) (acc : List (INode × String)),
      l.foldl (fun results p =>
          if jsIncludes (jsToLower p.2.name) (jsToLower q)
          then results ++ [(p.2, p.2.name)] else results) acc
        = acc ++ l.filterMap (fun p =>
          if jsIncludes (jsToLower p.2.name) (jsToLower q)
          then some (p.2, p.2.name) else none) := by
    intro l
    induction l with
    | nil => intro acc; simp
    | cons p rest ih =>
      intro acc
      by_cases h : jsIncludes (jsToLower p.2.name) (jsToLower q) = true
      · simp [List.filterMap_cons, h, ih]
      · simp [List.filterMap_cons, h, ih]
  simpa [searchFiles] using key s []

/-! ### Claim theorems -/

/-- Claim C1 (code behavior at the failing input): on the seed tree,
`deleteNode("components")` does remove the directory and its descendant
from the table — `readINode("components")` and `readINode("button.tsx")`
both return not-found afterwards — but it never unlinks the deleted id
from its parent: `root`'s children list still contains "components". -/
theorem deleteNode_components_leaves_dangling_child :
    readINode (deleteNode 10 seedStore "components").1 "components" = none ∧
    readINode (deleteNode 10 seedStore "components").1 "button.tsx" = none ∧
    readINode (deleteNode 10 seedStore "components").1 "root" =
      some (INode.directory "root" "src" ["index.tsx", "components", "types"]) := by
  decide

/-- Claim C2 (code behavior at the failing inputs): `createFile` with a
file as parent ("index.tsx") or with an absent parent ("missing-dir")
does not fail: it unconditionally inserts the new node into the table
(leaving it orphaned, the store changed) and returns the created file
with no error. -/
theorem createFile_bad_parent_inserts_orphan :
    (createFile seedStore "index.tsx" "x" ".txt").1 =
      seedStore ++ [("x.txt", INode.file "x.txt" "x.txt")] ∧
    (createFile seedStore "index.tsx" "x" ".txt").2 =
      INode.file "x.txt" "x.txt" ∧
    (createFile seedStore "missing-dir" "y" ".txt").1 =
      seedStore ++ [("y.txt", INode.file "y.txt" "y.txt")] := by
  decide

/-- Claim C3 (code behavior at the failing input): on the seed tree,
`searchFiles("ton")` returns exactly one result, the file "button.tsx",
but its `path` is the bare name "button.tsx" (the code sets
`path = node.name`), not the resolved chain "src/components/button.tsx". -/
theorem searchFiles_ton_path_is_bare_name :
    searchFiles seedStore "ton" =
      [(INode.file "button.tsx" "button.tsx", "button.tsx")] := by
  decide

/-- Claim C4 (code behavior at the failing input): `deleteNode("root")`
is not rejected: it cascades over root's children, deletes the entire
seed tree including the root entry itself, and returns success. -/
theorem deleteNode_root_deletes_everything :
    deleteNode 10 seedStore "root" = ([], true) := by
  decide

/-- Claim C5 (code behavior at the failing input): for an absent node id,
`renameNode` leaves the store unchanged but signals no NotFound error: it
silently returns `undefined` (modelled as `none`). -/
theorem renameNode_missing_returns_undefined :
    renameNode seedStore "ghost" "x" = (seedStore, none) := by
  decide

/-- Claim C6 (code behavior at the failing input): creating a directory
whose derived id "components" collides with an existing entry is not
detected: the existing `components` directory (children ["button.tsx"])
is silently overwritten by an empty one, and `root`'s children list
gains a duplicate "components" entry. -/
theorem createDirectory_collision_overwrites :
    readINode (createDirectory seedStore "root" "components").1 "components" =
      some (INode.directory "components" "components" []) ∧
    readINode (createDirectory seedStore "root" "components").1 "root" =
      some (INode.directory "root" "src"
        ["index.tsx", "components", "types", "components"]) := by
  decide

/-- Claim C7: for every node present in the store, `renameNode` updates
only the `name` field: afterwards reading the node yields it with name
`newName` and with `id`, `type` and `children` unchanged, and every
other id (in particular the parent directory and its children list) reads
exactly as before. -/
theorem renameNode_updates_only_name (s : Store) (nodeId newName j : String)
    (node : INode) (h : readINode s nodeId = some node) (hj : j ≠ nodeId) :
    readINode (renameNode s nodeId newName).1 nodeId =
      some (node.withName newName) ∧
    (node.withName newName).name = newName ∧
    (node.withName newName).id = node.id ∧
    (node.withName newName).typeTag = node.typeTag ∧
    (node.withName newName).childrenOf = node.childrenOf ∧
    readINode (renameNode s nodeId newName).1 j = readINode s j := by
  have h' : mapGet s nodeId = some node := h
  have hr : (renameNode s nodeId newName).1 =
      mapSet s nodeId (node.withName newName) := by
    simp [renameNode, h']
  refine ⟨?_, name_withName _ _, id_withName _ _, typeTag_withName _ _,
    childrenOf_withName _ _, ?_⟩
  · rw [readINode, hr]
    exact mapGet_mapSet_self s nodeId _
  · rw [readINode, hr, readINode]
    exact mapGet_mapSet_ne s nodeId j _ hj

/-- Witness for C7: rename "index.tsx" to "main.tsx" on the seed tree,
with "components" as the untouched other id. -/
theorem renameNode_updates_only_name_witness :
    readINode seedStore "index.tsx" = some (INode.file "index.tsx" "index.tsx") ∧
    ("components" : String) ≠ "index.tsx" ∧
    (readINode (renameNode seedStore "index.tsx" "main.tsx").1 "index.tsx" =
        some ((INode.file "index.tsx" "index.tsx").withName "main.tsx") ∧
      ((INode.file "index.tsx" "index.tsx").withName "main.tsx").name = "main.tsx" ∧
      ((INode.file "index.tsx" "index.tsx").withName "main.tsx").id =
        (INode.file "index.tsx" "index.tsx").id ∧
      ((INode.file "index.tsx" "index.tsx").withName "main.tsx").typeTag =
        (INode.file "index.tsx" "index.tsx").typeTag ∧
      ((INode.file "index.tsx" "index.tsx").withName "main.tsx").childrenOf =
        (INode.file "index.tsx" "index.tsx").childrenOf ∧
      readINode (renameNode seedStore "index.tsx" "main.tsx").1 "components" =
        readINode seedStore "components") :=
  ⟨by decide, by decide,
    renameNode_updates_only_name seedStore "index.tsx" "main.tsx" "components"
      (INode.file "index.tsx" "index.tsx") (by decide) (by decide)⟩

/-- Claim C8: from every store state reachable by any sequence of
create / rename / delete operations from the seed, `resetFileSystem`
followed by `getAllNodes` yields exactly the fixed seed tree. -/
theorem resetFileSystem_restores_seed (s : Store) (_h : Reachable s) :
    getAllNodes (resetFileSystem s) = seedStore := by
  rfl

/-- Witness for C8: at the seed store itself. -/
theorem resetFileSystem_restores_seed_witness :
    Reachable seedStore ∧ getAllNodes (resetFileSystem seedStore) = seedStore :=
  ⟨Reachable.init, resetFileSystem_restores_seed seedStore Reachable.init⟩

/-- Claim C9: `searchFiles` returns a result for exactly those table
entries whose name, lowercased, contains the lowercased query as a
(contiguous) substring; matching ranges over all nodes of the store, and
each result's path is the node's bare name. -/
theorem searchFiles_mem_iff (s : Store) (q : String) (r : INode × String) :
    r ∈ searchFiles s q ↔
      ∃ i, (i, r.1) ∈ s ∧
        (∃ pre post,
          (jsToLower r.1.name).data = pre ++ (jsToLower q).data ++ post) ∧
        r.2 = r.1.name := by
  rw [searchFiles_eq_filterMap, List.mem_filterMap]
  constructor
  · rintro ⟨⟨i, n⟩, hmem, hf⟩
    by_cases h : jsIncludes (jsToLower n.name) (jsToLower q) = true
    · rw [if_pos h] at hf
      obtain rfl := Option.some.inj hf
      exact ⟨i, hmem, (jsIncludes_iff _ _).mp h, rfl⟩
    · rw [if_neg h] at hf
      exact absurd hf (by simp)
  · rintro ⟨i, hmem, hsub, hpath⟩
    refine ⟨(i, r.1), hmem, ?_⟩
    rw [if_pos ((jsIncludes_iff _ _).mpr hsub)]
    obtain ⟨a, b⟩ := r
    simp only [Prod.mk.injEq, Option.some.injEq]
    exact ⟨trivial, hpath.symm⟩

/-- Claim C10: for every store state, the empty query matches every node
(the empty string is a substring of every name), so `searchFiles("")`
returns one result per table entry. -/
theorem searchFiles_empty_query_length (s : Store) :
    (searchFiles s "").length = s.length := by
  rw [searchFiles_eq_filterMap]
  have hall : ∀ p : String × INode,
      (if jsIncludes (jsToLower p.2.name) (jsToLower "")
        then some (p.2, p.2.name) else none) = some (p.2, p.2.name) := by
    intro p
    rw [if_pos]
    rw [show jsToLower "" = "" from rfl]
    exact jsIncludes_empty_needle _
  have hmap : s.filterMap (fun p =>
      if jsIncludes (jsToLower p.2.name) (jsToLower "")
      then some (p.2, p.2.name) else none) =
      s.map (fun p => (p.2, p.2.name)) := by
    induction s with
    | nil => rfl
    | cons p rest ih => simp [List.filterMap_cons, hall p, ih]
  rw [hmap, List.length_map]
